import Mathlib

/-!
Verification of the sunbeam configuration layer (`sunbeamlib/config.py`) and
the read filter (`sunbeamlib/decontam.py`) against its design document.

The Python code is shallowly embedded: pathlib paths become `FsPath`
(an absolute flag plus a component list), the filesystem observed by the code
becomes an explicit `FS` record (existence test, canonicalization, current
working directory, home directory), YAML values become the inductive `CVal`,
ordered dictionaries become ordered association lists, and Python exceptions
become `Except String`.
-/

namespace Sunbeam

/-- A POSIX-style path as pathlib models it: an absolute flag plus the list of
components, duplicate separators and single dots dropped. -/
structure FsPath where
  abs : Bool
  comps : List String
deriving DecidableEq, Repr

/-- The filesystem state the configuration code observes: `ex` is
`Path.exists`, `res` is `Path.resolve` (symlink canonicalization), `cwd` is
`Path.cwd()` and `home` is the home directory used by `expanduser`. -/
structure FS where
  ex : FsPath → Bool
  res : FsPath → FsPath
  cwd : FsPath
  home : FsPath

/-- Split a character list at every occurrence of a separator (the list-level
semantics of `str.split`). -/
def splitOnChar (c : Char) (l : List Char) : List (List Char) :=
  match l with
  | [] => [[]]
  | ch :: rest =>
    match splitOnChar c rest with
    | cur :: done => if ch = c then [] :: cur :: done else (ch :: cur) :: done
    | [] => [[ch]]

/-- `s.endswith(suffix)` as a structural test on the character data. -/
def strEndsWith (s suffix : String) : Bool :=
  suffix.data.isSuffixOf s.data

/-- Substring containment test on the character data (`sub in s`). -/
def strContains (s sub : String) : Bool :=
  go sub.data s.data
where
  go (sub : List Char) : List Char → Bool
    | [] => sub.isEmpty
    | c :: rest => sub.isPrefixOf (c :: rest) || go sub rest

/-- `Path(s)` on a raw string: leading slash decides absoluteness, empty and
single-dot components are dropped. -/
def strToPath (s : String) : FsPath :=
  ⟨s.data.head? == some (Char.ofNat 47),
   ((splitOnChar (Char.ofNat 47) s.data).map (fun l => String.mk l)).filter
     (fun c => !(c == "") && !(c == "."))⟩

/-- `str(path)` for an `FsPath`. -/
def pathStr (p : FsPath) : String :=
  if p.comps.isEmpty then (if p.abs then "/" else ".")
  else (if p.abs then "/" else "") ++ String.intercalate "/" p.comps

/-- `a / b` on paths: an absolute right operand replaces the left one. -/
def joinP (a b : FsPath) : FsPath :=
  if b.abs then b else ⟨a.abs, a.comps ++ b.comps⟩

/-- `Path.expanduser`: a leading `~` component of a relative path is replaced
by the home directory. -/
def expandu (home : FsPath) (p : FsPath) : FsPath :=
  if p.abs = false ∧ p.comps.head? = some "~" then
    ⟨home.abs, home.comps ++ p.comps.tail⟩
  else p

/-- A single-quote character, used in the error messages of the source. -/
def sq : String := String.singleton (Char.ofNat 39)

/-- `verify(path)` from config.py: return the canonicalized path if it
exists, otherwise raise `ValueError(f"Path ... does not exist")`. -/
def verify (fs : FS) (p : FsPath) : Except String FsPath :=
  if fs.ex p then Except.ok (fs.res p)
  else Except.error ("Path " ++ pathStr p ++ " does not exist")

/-- A YAML configuration value: string scalar, integer scalar, a pathlib
path produced by validation, or a nested mapping (ordered, as ruamel
round-trip dictionaries are). -/
inductive CVal where
  | str (s : String)
  | nat (n : Nat)
  | pathv (p : FsPath)
  | mp (m : List (String × CVal))
deriving Repr

/-- Whether a value is a mapping (`isinstance(v, collections.Mapping)`). -/
def isMapping : CVal → Bool
  | .mp _ => true
  | _ => false

/-- Dictionary lookup on an ordered association list. -/
def lookupKey {α : Type} (l : List (String × α)) (k : String) : Option α :=
  (l.find? (fun q => q.1 == k)).map (fun q => q.2)

/-- `k in d` on an ordered association list. -/
def hasKey {α : Type} (l : List (String × α)) (k : String) : Bool :=
  (lookupKey l k).isSome

/-- `d[k] = v` on an ordered association list: overwrite in place if the key
is present, append at the end otherwise (Python dict assignment). -/
def setKey {α : Type} (l : List (String × α)) (k : String) (v : α) :
    List (String × α) :=
  if hasKey l k then l.map (fun q => if q.1 = k then (k, v) else q)
  else l ++ [(k, v)]

/-- One configuration subsection: an ordered mapping from key to value. -/
abbrev Sect := List (String × CVal)

/-- A whole configuration tree: ordered mapping from section name to section. -/
abbrev ConfigTree := List (String × Sect)

/-- `makepath(v)` from config.py applied to a config value:
`Path(v).expanduser()`; a non-path value raises `TypeError`. -/
def makepathV (fs : FS) (v : CVal) : Except String FsPath :=
  match v with
  | .str s => Except.ok (expandu fs.home (strToPath s))
  | .pathv p => Except.ok (expandu fs.home p)
  | _ => Except.error "TypeError: argument is not path-like"

/-- `Path(v)` without home expansion, as `verify` applies it to
`cfg[..]` values; a non-path value has no path reading. -/
def cvalToPath : CVal → Option FsPath
  | .str s => some (strToPath s)
  | .pathv p => some p
  | _ => none

/-- `validate_paths(cfg, root)` from config.py: build a fresh section; every
key ending in `_fp` has its value converted by `makepath`, prefixed with
`root` when not absolute, and — except for the key `output_fp` — verified to
exist, re-raising as `For key ...: path ... does not exist`; every other key
keeps its value unchanged. -/
def validate_paths (fs : FS) (cfg : Sect) (root : FsPath) :
    Except String Sect :=
  match cfg with
  | [] => Except.ok []
  | (k, v) :: rest => do
    let v' ←
      if strEndsWith k "_fp" then do
        let p0 ← makepathV fs v
        let p := if p0.abs then p0 else joinP root p0
        if k == "output_fp" then
          pure (CVal.pathv p)
        else
          match verify fs p with
          | Except.ok q => pure (CVal.pathv q)
          | Except.error _ =>
              Except.error ("For key " ++ sq ++ k ++ sq ++ ": path " ++ sq
                ++ pathStr p ++ sq ++ " does not exist")
      else pure v
    let rest' ← validate_paths fs rest root
    pure ((k, v') :: rest')

/-- The dictionary comprehension inside `check_config`: apply
`validate_paths` to every section in order, failing on the first error. -/
def validate_sections (fs : FS) (root : FsPath) :
    ConfigTree → Except String ConfigTree
  | [] => Except.ok []
  | (s, sec) :: rest => do
    let sec' ← validate_paths fs sec root
    let rest' ← validate_sections fs root rest
    pure ((s, sec') :: rest')

/-- `new_cfg["all"]["root"] = root`: overwrite the root entry of the `all`
section of a tree. -/
def setRootAll (cfg : ConfigTree) (root : FsPath) : ConfigTree :=
  cfg.map (fun sc =>
    if sc.1 = "all" then (sc.1, setKey sc.2 "root" (CVal.pathv root)) else sc)

/-- `check_config(cfg)` from config.py: resolve the root — the verified value
of `cfg["all"]["root"]` when present, the current working directory otherwise
— validate the paths of every section with it, and overwrite
`cfg["all"]["root"]` in the result with the resolved root. -/
def check_config (fs : FS) (cfg : ConfigTree) : Except String ConfigTree := do
  let allSec ←
    match lookupKey cfg "all" with
    | some s => Except.ok s
    | none => Except.error "KeyError: all"
  let root ←
    match lookupKey allSec "root" with
    | some v =>
      match cvalToPath v with
      | some p => verify fs p
      | none => Except.error "TypeError: root is not path-like"
    | none => Except.ok fs.cwd
  let newCfg ← validate_sections fs root cfg
  pure (setRootAll newCfg root)

/-- Parse a non-empty all-digit character list as a natural number. -/
def digitsToNat (l : List Char) : Option Nat :=
  if l.isEmpty then none
  else
    l.foldl (fun acc c =>
      acc.bind (fun n =>
        if 48 ≤ c.toNat ∧ c.toNat ≤ 57 then some (10 * n + (c.toNat - 48))
        else none)) (some 0)

/-- Modelled from the spec: `semantic_version.Version` parsing of a
`major.minor.patch` string (the library is external to this repository);
malformed strings raise. -/
def parseVersion (s : String) : Except String (Nat × Nat × Nat) :=
  match (splitOnChar (Char.ofNat 46) s.data).map digitsToNat with
  | [some x, some y, some z] => Except.ok (x, y, z)
  | _ => Except.error "ValueError: invalid version string"

/-- `check_compatibility(cfg)` from config.py, with the running package
version string passed as a parameter (`sunbeamlib.__version__` is defined
outside these sources): read `cfg["all"].get("version", "0.0.0")`, parse both
versions, and return the pair of major components. -/
def check_compatibility (pkgVersion : String) (cfg : ConfigTree) :
    Except String (Nat × Nat) := do
  let allSec ←
    match lookupKey cfg "all" with
    | some s => Except.ok s
    | none => Except.error "KeyError: all"
  let vs ←
    match lookupKey allSec "version" with
    | some (CVal.str s) => Except.ok s
    | none => Except.ok "0.0.0"
    | some _ => Except.error "TypeError: version is not a string"
  let cfgV ← parseVersion vs
  let pkgV ← parseVersion pkgVersion
  pure (pkgV.1, cfgV.1)

/-- A database specification as `process_databases` reads it: a root path
string and the two optional name-to-relative-path groups. -/
structure DbSpec where
  root_fp : String
  nucleotide : Option (List (String × String))
  protein : Option (List (String × String))

/-- `process_databases(db_dict)` from config.py: verify the home-expanded
root, then map each present group entry-wise to `str(root/path)`; a group
that is absent (or empty, hence falsy) leaves its slot as the empty
mapping. -/
def process_databases (fs : FS) (d : DbSpec) :
    Except String (List (String × List (String × String))) := do
  let root ← verify fs (expandu fs.home (strToPath d.root_fp))
  let conv := fun (l : List (String × String)) =>
    l.map (fun e => (e.1, pathStr (joinP root (strToPath e.2))))
  let nucl :=
    match d.nucleotide with
    | some l => if l.isEmpty then [] else conv l
    | none => []
  let prot :=
    match d.protein with
    | some l => if l.isEmpty then [] else conv l
    | none => []
  pure [("nucl", nucl), ("prot", prot)]

/-- `_update_dict(target, new)` from config.py, the lenient merge, written on
the item list of `new`: a mapping value recurses into `target[k]` (or a fresh
empty mapping when `k` is absent), any other value is assigned; item
assignment or containment testing on a non-mapping target raises
`TypeError`. -/
def update_dict : CVal → List (String × CVal) → Except String CVal
  | t, [] => Except.ok t
  | CVal.mp tl, (k, v) :: rest =>
    match v with
    | CVal.mp m => do
      let sub := if hasKey tl k then (lookupKey tl k).getD (CVal.mp []) else CVal.mp []
      let v' ← update_dict sub m
      update_dict (CVal.mp (setKey tl k v')) rest
    | _ => update_dict (CVal.mp (setKey tl k v)) rest
  | _, _ :: _ => Except.error "TypeError: target is not a mapping"
termination_by _ items => sizeOf items
decreasing_by all_goals (simp; try omega)

/-- `_update_dict_strict(target, new)` from config.py, the strict merge: a
mapping value at a key present in `target` recurses, any other value at a
present key overwrites, an absent key is skipped after a stderr diagnostic;
`target.keys()` on a non-mapping target raises. -/
def update_dict_strict : CVal → List (String × CVal) → Except String CVal
  | t, [] => Except.ok t
  | CVal.mp tl, (k, v) :: rest =>
    match v, hasKey tl k with
    | CVal.mp m, true => do
      let sub := (lookupKey tl k).getD (CVal.mp [])
      let v' ← update_dict_strict sub m
      update_dict_strict (CVal.mp (setKey tl k v')) rest
    | _, true => update_dict_strict (CVal.mp (setKey tl k v)) rest
    | _, false => update_dict_strict (CVal.mp tl) rest
  | _, _ :: _ => Except.error "AttributeError: target is not a mapping"
termination_by _ items => sizeOf items
decreasing_by all_goals (simp; try omega)

/-- One entry of the extensions directory as `extension_config` observes it:
either a non-directory entry (listing it raises `NotADirectoryError`) or a
directory with its file names and the text of its `config.yml` (meaningful
only when that file is present). -/
inductive DirEntry where
  | file (name : String)
  | dir (name : String) (files : List String) (cfgText : String)

/-- One iteration of the `extension_config` loop: skip a non-directory entry
or a directory without `config.yml`, otherwise append a newline plus the
file text to the accumulator. -/
def extStep (acc : String) : DirEntry → String
  | DirEntry.file _ => acc
  | DirEntry.dir _ files txt =>
    if files.contains "config.yml" then acc ++ ("\n" ++ txt) else acc

/-- `extension_config()` from config.py over the listing of
`<sunbeam_dir>/extensions`: walk the entries in listing order accumulating
with `extStep`, starting from the empty string. -/
def extension_config (entries : List DirEntry) : String :=
  entries.foldl extStep ""

/-- An alignment record as the read filter observes it (pysam
`AlignedSegment`): mapped flag, query name, the optional NM tag, the
reference-aligned length `alen`, the aligned query length, and the cigar
operation/length pairs. -/
structure SamRead where
  is_unmapped : Bool
  query_name : String
  nm : Option Nat
  alen : Nat
  query_alignment_length : Nat
  cigartuples : List (Nat × Nat)

/-- The clip accumulation loop of `_get_frac`: sum the lengths of cigar
pairs whose operation is 4 (soft clip) or 5 (hard clip). -/
def clipLen (cigar : List (Nat × Nat)) : Nat :=
  cigar.foldl (fun clip pair =>
    if pair.1 = 4 ∨ pair.1 = 5 then clip + pair.2 else clip) 0

/-- `_get_pct_identity(read)` from decontam.py: one minus edit distance over
reference-aligned length, a missing NM tag read as zero. -/
def get_pct_identity (r : SamRead) : ℚ :=
  1 - ((r.nm.getD 0 : ℚ) / (r.alen : ℚ))

/-- `_get_frac(read)` from decontam.py: aligned query length over aligned
query length plus clipped length. -/
def get_frac (r : SamRead) : ℚ :=
  (r.query_alignment_length : ℚ)
    / ((r.query_alignment_length : ℚ) + (clipLen r.cigartuples : ℚ))

/-- `get_mapped_reads(fp, min_pct_id, min_len_frac)` from decontam.py over a
record stream: yield the query name of every mapped record whose aligned
fraction and percent identity strictly exceed the thresholds. -/
def get_mapped_reads (reads : List SamRead) (min_pct_id min_len_frac : ℚ) :
    List String :=
  (reads.filter (fun r =>
    !r.is_unmapped && decide (get_frac r > min_len_frac)
      && decide (get_pct_identity r > min_pct_id))).map
    (fun r => r.query_name)

/-! ## Helper lemmas on the dictionary model -/

@[simp]
theorem ok_bind {α β : Type} (a : α) (f : α → Except String β) :
    (Except.ok a >>= f) = f a := rfl

@[simp]
theorem error_bind {α β : Type} (e : String) (f : α → Except String β) :
    ((Except.error e : Except String α) >>= f) = Except.error e := rfl

theorem lookupKey_cons {α : Type} (k0 : String) (v0 : α) (l : List (String × α))
    (k : String) :
    lookupKey ((k0, v0) :: l) k =
      if k0 = k then some v0 else lookupKey l k := by
  by_cases h : k0 = k
  · simp [lookupKey, List.find?, h]
  · have hb : (k0 == k) = false := beq_eq_false_iff_ne.mpr h
    simp [lookupKey, List.find?, hb, h]

theorem hasKey_cons {α : Type} (k0 : String) (v0 : α) (l : List (String × α))
    (k : String) :
    hasKey ((k0, v0) :: l) k = (decide (k0 = k) || hasKey l k) := by
  by_cases h : k0 = k <;> simp [hasKey, lookupKey_cons, h]

theorem lookup_overwrite {α : Type} (l : List (String × α)) (k : String) (v : α)
    (h : hasKey l k = true) :
    lookupKey (l.map (fun q => if q.1 = k then (k, v) else q)) k = some v := by
  induction l with
  | nil => simp [hasKey, lookupKey] at h
  | cons p rest ih =>
    cases p with
    | mk p1 p2 =>
      by_cases hp : p1 = k
      · simp [lookupKey_cons, hp]
      · rw [hasKey_cons] at h
        simp [hp] at h
        simpa [lookupKey_cons, hp] using ih h

theorem lookup_append_missing {α : Type} (l : List (String × α)) (k : String)
    (v : α) (h : hasKey l k = false) :
    lookupKey (l ++ [(k, v)]) k = some v := by
  induction l with
  | nil => simp [lookupKey, List.find?]
  | cons p rest ih =>
    rw [hasKey_cons] at h
    rcases Bool.or_eq_false_iff.mp h with ⟨h1, h2⟩
    cases p with
    | mk p1 p2 =>
      have h1' : ¬ p1 = k := by simpa using h1
      simpa [lookupKey_cons, h1'] using ih h2

theorem lookup_map_ne {α : Type} (l : List (String × α)) (k : String) (v : α)
    (q : String) (h : q ≠ k) :
    lookupKey (l.map (fun p => if p.1 = k then (k, v) else p)) q
      = lookupKey l q := by
  induction l with
  | nil => simp
  | cons p rest ih =>
    cases p with
    | mk p1 p2 =>
      by_cases hp : p1 = k
      · have hkq : ¬ k = q := fun hh => h hh.symm
        have hpq : ¬ p1 = q := by rw [hp]; exact hkq
        simp [lookupKey_cons, hp, hkq, hpq, ih]
      · by_cases hq : p1 = q
        · subst hq
          simp [lookupKey_cons, hp]
        · simp [lookupKey_cons, hp, hq, ih]

theorem lookup_append_ne {α : Type} (l : List (String × α)) (k : String) (v : α)
    (q : String) (h : q ≠ k) :
    lookupKey (l ++ [(k, v)]) q = lookupKey l q := by
  induction l with
  | nil =>
    have hkq : (k == q) = false :=
      beq_eq_false_iff_ne.mpr (fun hh => h hh.symm)
    simp [lookupKey, List.find?, hkq]
  | cons p rest ih =>
    cases p with
    | mk p1 p2 => by_cases hq : p1 = q <;> simp [lookupKey_cons, hq, ih]

theorem lookupKey_setKey_self {α : Type} (l : List (String × α)) (k : String)
    (v : α) : lookupKey (setKey l k v) k = some v := by
  by_cases h : hasKey l k = true
  · simp [setKey, h, lookup_overwrite l k v h]
  · have h' : hasKey l k = false := by simpa using h
    simp [setKey, h', lookup_append_missing l k v h']

theorem lookupKey_setKey_ne {α : Type} (l : List (String × α)) (k : String)
    (v : α) (q : String) (h : q ≠ k) :
    lookupKey (setKey l k v) q = lookupKey l q := by
  by_cases hk : hasKey l k = true
  · simp [setKey, hk, lookup_map_ne l k v q h]
  · have h' : hasKey l k = false := by simpa using hk
    simp [setKey, h', lookup_append_ne l k v q h]

theorem hasKey_setKey {α : Type} (l : List (String × α)) (k : String) (v : α)
    (q : String) : hasKey (setKey l k v) q = (hasKey l q || q == k) := by
  by_cases hq : q = k
  · subst hq
    simp [hasKey, lookupKey_setKey_self]
  · have : (q == k) = false := by simpa using hq
    simp [hasKey, lookupKey_setKey_ne l k v q hq, this]

/-! ## Merge claims: identities and the scalar-versus-mapping shape -/

/-- C5: the lenient merge has the empty mapping as a right identity — for
every target value, `_update_dict(target, dict())` returns the target
unchanged — and composes on nested mappings: merging a nested `x: 1` under
`a` and then a nested `y: 2` under `a` into the empty mapping yields both
bindings under `a`. -/
theorem lenient_merge_identity_and_compose :
    (∀ t : CVal, update_dict t [] = Except.ok t) ∧
    update_dict (CVal.mp []) [("a", CVal.mp [("x", CVal.nat 1)])]
      = Except.ok (CVal.mp [("a", CVal.mp [("x", CVal.nat 1)])]) ∧
    update_dict (CVal.mp [("a", CVal.mp [("x", CVal.nat 1)])])
        [("a", CVal.mp [("y", CVal.nat 2)])]
      = Except.ok
          (CVal.mp [("a", CVal.mp [("x", CVal.nat 1), ("y", CVal.nat 2)])]) := by
  refine ⟨fun t => by simp [update_dict], ?_, ?_⟩ <;>
    simp [update_dict, hasKey, lookupKey, List.find?, setKey]

/-- Whether a directory entry contributes an extension fragment: it must be a
directory whose listing contains `config.yml`. -/
def extQualifies : DirEntry → Bool
  | DirEntry.file _ => false
  | DirEntry.dir _ files _ => files.contains "config.yml"

/-- The fragment a single entry contributes: a newline followed by the text
of its `config.yml`, when present. -/
def extFragment : DirEntry → Option String
  | DirEntry.file _ => none
  | DirEntry.dir _ files txt =>
    if files.contains "config.yml" then some ("\n" ++ txt) else none

/-- The concatenation, in listing order, of the fragments of the qualifying
entries (the behaviour the design document ascribes to the aggregator). -/
def extSpecText : List DirEntry → String
  | [] => ""
  | e :: rest =>
    (match extFragment e with
     | some s => s
     | none => "") ++ extSpecText rest

theorem extension_config_foldl (entries : List DirEntry) (acc : String) :
    entries.foldl extStep acc = acc ++ extSpecText entries := by
  induction entries generalizing acc with
  | nil => simp [extSpecText, String.append_empty]
  | cons e rest ih =>
    rw [List.foldl_cons, ih]
    cases e with
    | file n => simp [extStep, extSpecText, extFragment]
    | dir n files txt =>
      by_cases hc : "config.yml" ∈ files
      · simp [extStep, extSpecText, extFragment, hc, String.append_assoc]
      · simp [extStep, extSpecText, extFragment, hc]

theorem extSpecText_empty (entries : List DirEntry)
    (h : ∀ e ∈ entries, extQualifies e = false) : extSpecText entries = "" := by
  induction entries with
  | nil => rfl
  | cons e rest ih =>
    have he : extQualifies e = false := h e (List.mem_cons_self e rest)
    have hrest := ih (fun x hx => h x (List.mem_cons_of_mem e hx))
    cases e with
    | file n => simp [extSpecText, extFragment, hrest]
    | dir n files txt =>
      have hc : "config.yml" ∉ files := by
        simpa [extQualifies] using he
      simp [extSpecText, extFragment, hc, hrest]

/-- C6: `extension_config` concatenates, in directory-listing order, a
newline followed by the `config.yml` text of every directory entry that has
one, silently skipping non-directory entries and directories without that
file, and returns the empty string when no qualifying extension is
present. -/
theorem extension_config_spec :
    (∀ entries, extension_config entries = extSpecText entries) ∧
    (∀ entries, (∀ e ∈ entries, extQualifies e = false) →
      extension_config entries = "") := by
  constructor
  · intro entries
    simpa [extension_config] using extension_config_foldl entries ""
  · intro entries h
    simpa [extension_config, extSpecText_empty entries h] using
      extension_config_foldl entries ""

/-- Witness for C6 at a concrete listing: one non-directory entry and one
directory without a `config.yml` produce the empty aggregate. -/
theorem extension_config_spec_witness :
    extension_config [DirEntry.file "a", DirEntry.dir "c" ["other"] "C"]
      = "" :=
  extension_config_spec.2 [DirEntry.file "a", DirEntry.dir "c" ["other"] "C"]
    (by decide)

/-- C8: `check_compatibility` returns the pair of package-major and
config-major versions, reading `cfg["all"]["version"]` and defaulting it to
`0.0.0` when absent, and succeeds regardless of how the two versions
compare. -/
theorem check_compatibility_spec :
    ∀ (pkg : String) (pM pmn pp : Nat) (cfg : ConfigTree) (allSec : Sect),
      lookupKey cfg "all" = some allSec →
      parseVersion pkg = Except.ok (pM, pmn, pp) →
      ((lookupKey allSec "version" = none →
          check_compatibility pkg cfg = Except.ok (pM, 0)) ∧
       (∀ s cM cmn cp, lookupKey allSec "version" = some (CVal.str s) →
          parseVersion s = Except.ok (cM, cmn, cp) →
          check_compatibility pkg cfg = Except.ok (pM, cM))) := by
  intro pkg pM pmn pp cfg allSec hall hpkg
  constructor
  · intro hnone
    have h000 : parseVersion "0.0.0" = Except.ok (0, 0, 0) := rfl
    simp [check_compatibility, hall, hnone, h000, hpkg]
  · intro s cM cmn cp hv hps
    simp [check_compatibility, hall, hv, hps, hpkg]

/-- Witness for C8: with package version `4.0.0` and config version `3.2.1`
the pair of majors is `(4, 3)`. -/
theorem check_compatibility_spec_witness :
    check_compatibility "4.0.0" [("all", [("version", CVal.str "3.2.1")])]
      = Except.ok (4, 3) :=
  (check_compatibility_spec "4.0.0" 4 0 0
      [("all", [("version", CVal.str "3.2.1")])]
      [("version", CVal.str "3.2.1")] rfl rfl).2 "3.2.1" 3 2 1 rfl rfl

/-- C10 counterexample: with `target = (a: 1)` and `new = (a: empty
mapping)` — a nested mapping in `new` against a scalar in `target` — both
merges return successfully with the scalar kept, instead of failing with an
error: the recursive call iterates over zero items and hands the scalar
back. -/
theorem merge_scalar_mapping_counterexample :
    update_dict (CVal.mp [("a", CVal.nat 1)]) [("a", CVal.mp [])]
      = Except.ok (CVal.mp [("a", CVal.nat 1)]) ∧
    update_dict_strict (CVal.mp [("a", CVal.nat 1)]) [("a", CVal.mp [])]
      = Except.ok (CVal.mp [("a", CVal.nat 1)]) := by
  constructor <;>
    simp [update_dict, update_dict_strict, hasKey, lookupKey, List.find?,
      setKey]

/-- C10 amended: when `new` maps `k` to a NON-EMPTY nested mapping while
`target` maps `k` to a non-mapping value, both merges fail with an error;
when the nested mapping is empty, both merges succeed and leave the value at
`k` unchanged. -/
theorem merge_scalar_mapping_amended :
    ∀ (tl : List (String × CVal)) (k : String) (v : CVal)
      (m : List (String × CVal)),
      lookupKey tl k = some v → isMapping v = false →
      ((m = [] →
          update_dict (CVal.mp tl) [(k, CVal.mp m)]
            = Except.ok (CVal.mp (setKey tl k v)) ∧
          update_dict_strict (CVal.mp tl) [(k, CVal.mp m)]
            = Except.ok (CVal.mp (setKey tl k v))) ∧
       (m ≠ [] →
          (∃ e, update_dict (CVal.mp tl) [(k, CVal.mp m)]
             = Except.error e) ∧
          (∃ e, update_dict_strict (CVal.mp tl) [(k, CVal.mp m)]
             = Except.error e))) := by
  intro tl k v m hlook hvm
  have hk : hasKey tl k = true := by simp [hasKey, hlook]
  constructor
  · intro hm
    subst hm
    constructor
    · simp [update_dict, hk, hlook]
    · simp [update_dict_strict, hk, hlook]
  · intro hm
    obtain ⟨p, ms, rfl⟩ : ∃ p ms, m = p :: ms := by
      cases m with
      | nil => exact absurd rfl hm
      | cons p ms => exact ⟨p, ms, rfl⟩
    cases p with
    | mk k1 v1 =>
      constructor
      · refine ⟨"TypeError: target is not a mapping", ?_⟩
        cases v with
        | mp l => simp [isMapping] at hvm
        | str s => simp [update_dict, hk, hlook]
        | nat n => simp [update_dict, hk, hlook]
        | pathv q => simp [update_dict, hk, hlook]
      · refine ⟨"AttributeError: target is not a mapping", ?_⟩
        cases v with
        | mp l => simp [isMapping] at hvm
        | str s => simp [update_dict_strict, hk, hlook]
        | nat n => simp [update_dict_strict, hk, hlook]
        | pathv q => simp [update_dict_strict, hk, hlook]

/-- Witness for the amended C10 at a concrete input: a non-empty nested
mapping against the scalar `a: 1` makes both merges fail. -/
theorem merge_scalar_mapping_amended_witness :
    (∃ e, update_dict (CVal.mp [("a", CVal.nat 1)])
        [("a", CVal.mp [("x", CVal.nat 2)])] = Except.error e) ∧
    (∃ e, update_dict_strict (CVal.mp [("a", CVal.nat 1)])
        [("a", CVal.mp [("x", CVal.nat 2)])] = Except.error e) :=
  (merge_scalar_mapping_amended [("a", CVal.nat 1)] "a" (CVal.nat 1)
      [("x", CVal.nat 2)] rfl rfl).2 (by simp)

/-! ## The read filter -/

/-- The spec-side clipped length: the sum of the lengths of the soft-clip
(4) and hard-clip (5) cigar operations. -/
def clipSpec (r : SamRead) : Nat :=
  ((r.cigartuples.filter (fun p => p.1 == 4 || p.1 == 5)).map Prod.snd).sum

/-- The spec-side acceptance predicate for one record: mapped, aligned
fraction (aligned length over aligned length plus soft/hard-clipped length)
strictly above the length threshold, and percent identity (one minus edit
distance over aligned length, a missing tag read as zero) strictly above the
identity threshold. -/
def keepSpec (r : SamRead) (min_pct_id min_len_frac : ℚ) : Prop :=
  r.is_unmapped = false ∧
  (r.query_alignment_length : ℚ)
      / ((r.query_alignment_length : ℚ) + (clipSpec r : ℚ)) > min_len_frac ∧
  1 - ((r.nm.getD 0 : ℚ) / (r.alen : ℚ)) > min_pct_id

instance keepSpecDecidable (r : SamRead) (a b : ℚ) :
    Decidable (keepSpec r a b) := by
  unfold keepSpec; infer_instance

theorem clipLen_eq (r : SamRead) : clipLen r.cigartuples = clipSpec r := by
  have aux : ∀ (l : List (Nat × Nat)) (acc : Nat),
      List.foldl (fun clip pair =>
        if pair.1 = 4 ∨ pair.1 = 5 then clip + pair.2 else clip) acc l
        = acc + ((l.filter (fun p => p.1 == 4 || p.1 == 5)).map Prod.snd).sum := by
    intro l
    induction l with
    | nil => intro acc; simp
    | cons p rest ih =>
      intro acc
      by_cases hp : p.1 = 4 ∨ p.1 = 5
      · simp [List.foldl, hp, ih, Nat.add_assoc]
      · simp [List.foldl, hp, ih, not_or.mp hp]
  simpa [clipLen, clipSpec] using aux r.cigartuples 0

/-- C9: over every record stream whose mapped records have positive aligned
lengths, `get_mapped_reads` yields the query names of exactly the records
accepted by the claimed criterion: mapped, aligned fraction strictly above
`min_len_frac`, and percent identity strictly above `min_pct_id`, a missing
edit-distance tag read as zero mismatches. -/
theorem get_mapped_reads_spec :
    ∀ (reads : List SamRead) (min_pct_id min_len_frac : ℚ),
      (∀ r ∈ reads, 0 < r.alen ∧ 0 < r.query_alignment_length) →
      get_mapped_reads reads min_pct_id min_len_frac
        = (reads.filter
            (fun r => decide (keepSpec r min_pct_id min_len_frac))).map
            (fun r => r.query_name) := by
  intro reads pid lf hpos
  unfold get_mapped_reads
  congr 1
  apply List.filter_congr
  intro r hr
  cases hru : r.is_unmapped <;>
    simp [keepSpec, get_frac, get_pct_identity, clipLen_eq, hru,
      Bool.and_assoc]

/-- Witness for C9: a mapped read with aligned fraction 4/5 and identity 1
is kept, an unmapped one is dropped. -/
theorem get_mapped_reads_spec_witness :
    get_mapped_reads
        [⟨false, "r1", none, 10, 8, [(0, 8), (4, 2)]⟩,
         ⟨true, "r2", some 1, 10, 8, []⟩]
        (3/10) (3/10) = ["r1"] :=
  (get_mapped_reads_spec
      [⟨false, "r1", none, 10, 8, [(0, 8), (4, 2)]⟩,
       ⟨true, "r2", some 1, 10, 8, []⟩]
      (3/10) (3/10) (by decide)).trans
    (by
      have h1 : keepSpec ⟨false, "r1", none, 10, 8, [(0, 8), (4, 2)]⟩ (3/10) (3/10) := by
        refine ⟨rfl, ?_, ?_⟩
        · norm_num [clipSpec]
        · norm_num
      have h2 : ¬ keepSpec ⟨true, "r2", some 1, 10, 8, []⟩ (3/10) (3/10) := by
        intro hc
        exact absurd hc.1 (by simp)
      simp [List.filter, h1, h2])

/-! ## Section path validation -/

/-- The relation between an input `_fp` value and its validated output: the
value is converted and home-expanded by `makepath`, prefixed with the root
when not absolute; the key `output_fp` keeps that path with no existence
check, every other key requires existence and stores the canonicalized
path. -/
def fpResolved (fs : FS) (root : FsPath) (k : String) (v v' : CVal) : Prop :=
  ∃ p0 : FsPath, makepathV fs v = Except.ok p0 ∧
    ((k = "output_fp" →
        v' = CVal.pathv (if p0.abs then p0 else joinP root p0)) ∧
     (k ≠ "output_fp" →
        fs.ex (if p0.abs then p0 else joinP root p0) = true ∧
        v' = CVal.pathv (fs.res (if p0.abs then p0 else joinP root p0))))

/-- A filesystem on which no path exists, used as a concrete instance. -/
def fsNoEx : FS :=
  { ex := fun _ => false, res := id,
    cwd := ⟨true, ["w"]⟩, home := ⟨true, ["h"]⟩ }

/-- C2: a successful `validate_paths` run returns a section with the same
keys in the same order in which every non-`_fp` key keeps its value
unchanged and every `_fp` value is home-expanded, root-prefixed when
relative, and — for the key `output_fp` — accepted as-is with no existence
check; in particular a relative non-existent output path `q` validates to
`root/q`. The embedding is functional, so the input section itself is never
mutated. -/
theorem validate_paths_spec :
    (∀ (fs : FS) (cfg : Sect) (root : FsPath) (res : Sect),
       validate_paths fs cfg root = Except.ok res →
       List.Forall₂ (fun kv kv' : String × CVal =>
         kv'.1 = kv.1 ∧
         (strEndsWith kv.1 "_fp" = false → kv'.2 = kv.2) ∧
         (strEndsWith kv.1 "_fp" = true →
           fpResolved fs root kv.1 kv.2 kv'.2)) cfg res) ∧
    (∀ (fs : FS) (root q : FsPath),
       q.abs = false → q.comps.head? ≠ some "~" →
       fs.ex (joinP root q) = false →
       validate_paths fs [("output_fp", CVal.pathv q)] root
         = Except.ok [("output_fp", CVal.pathv (joinP root q))]) := by
  constructor
  · intro fs cfg root
    induction cfg with
    | nil =>
      intro res h
      rw [validate_paths] at h
      obtain rfl : ([] : Sect) = res := by simpa using h
      exact List.Forall₂.nil
    | cons kv rest ih =>
      intro res h
      cases kv with
      | mk k v =>
        rw [validate_paths] at h
        by_cases hfp : strEndsWith k "_fp" = true
        · rw [if_pos hfp] at h
          cases hmk : makepathV fs v with
          | error e => rw [hmk] at h; simp at h
          | ok p0 =>
            rw [hmk] at h
            simp only [ok_bind] at h
            by_cases hout : k = "output_fp"
            · have houtb : (k == "output_fp") = true := by simp [hout]
              rw [houtb] at h
              simp only [if_pos rfl] at h
              cases hrest : validate_paths fs rest root with
              | error e => rw [hrest] at h; simp at h
              | ok rest' =>
                rw [hrest] at h
                simp only [ok_bind] at h
                have hres : res = (k, CVal.pathv
                    (if p0.abs then p0 else joinP root p0)) :: rest' := by
                  simpa [pure, Except.pure] using h.symm
                subst hres
                refine List.Forall₂.cons ⟨rfl, ?_, ?_⟩ (ih rest' hrest)
                · intro hfalse; rw [hfp] at hfalse; cases hfalse
                · intro _
                  exact ⟨p0, hmk, fun _ => rfl, fun hne => absurd hout hne⟩
            · have houtb : (k == "output_fp") = false :=
                beq_eq_false_iff_ne.mpr hout
              rw [houtb] at h
              simp only [Bool.false_eq_true, if_false] at h
              cases hex : fs.ex (if p0.abs then p0 else joinP root p0) with
              | false =>
                rw [verify, if_neg (by simp [hex])] at h
                simp at h
              | true =>
                rw [verify, if_pos hex] at h
                cases hrest : validate_paths fs rest root with
                | error e => rw [hrest] at h; simp at h
                | ok rest' =>
                  rw [hrest] at h
                  simp only [ok_bind] at h
                  have hres : res = (k, CVal.pathv
                      (fs.res (if p0.abs then p0 else joinP root p0)))
                      :: rest' := by
                    simpa [pure, Except.pure] using h.symm
                  subst hres
                  refine List.Forall₂.cons ⟨rfl, ?_, ?_⟩ (ih rest' hrest)
                  · intro hfalse; rw [hfp] at hfalse; cases hfalse
                  · intro _
                    exact ⟨p0, hmk, fun he => absurd he hout,
                      fun _ => ⟨hex, rfl⟩⟩
        · have hfp' : strEndsWith k "_fp" = false := by simpa using hfp
          rw [hfp'] at h
          simp only [Bool.false_eq_true, if_false, ok_bind] at h
          cases hrest : validate_paths fs rest root with
          | error e => rw [hrest] at h; simp at h
          | ok rest' =>
            rw [hrest] at h
            simp only [ok_bind] at h
            have hres : res = (k, v) :: rest' := by
              simpa [pure, Except.pure] using h.symm
            subst hres
            refine List.Forall₂.cons ⟨rfl, fun _ => rfl, ?_⟩ (ih rest' hrest)
            intro htrue; rw [hfp'] at htrue; cases htrue
  · intro fs root q hq htilde hex
    have hexp : expandu fs.home q = q := by
      rw [expandu, if_neg]
      intro hcontra
      exact htilde hcontra.2
    have hfp : strEndsWith "output_fp" "_fp" = true := rfl
    simp [validate_paths, hfp, makepathV, hexp, hq, hex]

/-- Witness for C2: a relative non-existent path under `output_fp` validates
with no existence check to the root-prefixed path. -/
theorem validate_paths_spec_witness :
    validate_paths fsNoEx [("output_fp", CVal.pathv ⟨false, ["q"]⟩)]
        ⟨true, ["w"]⟩
      = Except.ok [("output_fp", CVal.pathv ⟨true, ["w", "q"]⟩)] := by
  have h := validate_paths_spec.2 fsNoEx ⟨true, ["w"]⟩ ⟨false, ["q"]⟩ rfl
    (by decide) rfl
  simpa [joinP] using h

/-! ## Error messages for missing paths -/

/-- C3 counterexample: when the declared root `/missing` does not exist,
`check_config` fails with the message `Path /missing does not exist`, which
names the offending path but does not name the offending key `root` — the
claim that the message always names both key and path fails here. -/
theorem missing_path_message_counterexample :
    check_config fsNoEx [("all", [("root", CVal.str "/missing")])]
      = Except.error "Path /missing does not exist"
    ∧ strContains "Path /missing does not exist" "root" = false := by
  constructor <;> rfl

/-- C3 amended: a non-`output_fp` path key whose resolved path does not
exist makes `validate_paths` fail with exactly
`For key '<key>': path '<path>' does not exist`, naming both key and path;
a declared root that does not exist makes `check_config` fail with exactly
`Path <path> does not exist`, naming the path but not the key. -/
theorem missing_path_messages :
    (∀ (fs : FS) (root : FsPath) (k : String) (v : CVal) (p0 : FsPath),
       strEndsWith k "_fp" = true → k ≠ "output_fp" →
       makepathV fs v = Except.ok p0 →
       fs.ex (if p0.abs then p0 else joinP root p0) = false →
       validate_paths fs [(k, v)] root
         = Except.error ("For key " ++ sq ++ k ++ sq ++ ": path " ++ sq
             ++ pathStr (if p0.abs then p0 else joinP root p0) ++ sq
             ++ " does not exist")) ∧
    (∀ (fs : FS) (cfg : ConfigTree) (allSec : Sect) (v : CVal) (p : FsPath),
       lookupKey cfg "all" = some allSec →
       lookupKey allSec "root" = some v →
       cvalToPath v = some p →
       fs.ex p = false →
       check_config fs cfg
         = Except.error ("Path " ++ pathStr p ++ " does not exist")) := by
  constructor
  · intro fs root k v p0 hfp hout hmk hex
    have houtb : (k == "output_fp") = false := beq_eq_false_iff_ne.mpr hout
    rw [validate_paths]
    simp [hfp, hmk, houtb, verify, hex]
  · intro fs cfg allSec v p hall hroot hpath hex
    rw [check_config, hall]
    simp only [ok_bind, hroot, hpath]
    rw [verify, if_neg (by simp [hex])]
    rfl

/-- Witness for the amended C3 at concrete inputs: a missing `db_fp` inside
a section and a missing declared root produce the two exact messages. -/
theorem missing_path_messages_witness :
    validate_paths fsNoEx [("db_fp", CVal.str "q")] ⟨true, ["w"]⟩
      = Except.error ("For key " ++ sq ++ "db_fp" ++ sq ++ ": path " ++ sq
          ++ "/w/q" ++ sq ++ " does not exist")
    ∧ check_config fsNoEx [("all", [("root", CVal.str "/missing")])]
      = Except.error "Path /missing does not exist" := by
  constructor
  · have h := missing_path_messages.1 fsNoEx ⟨true, ["w"]⟩ "db_fp"
      (CVal.str "q") ⟨false, ["q"]⟩ rfl (by decide) rfl rfl
    simpa [joinP, pathStr] using h
  · exact missing_path_messages.2 fsNoEx
      [("all", [("root", CVal.str "/missing")])]
      [("root", CVal.str "/missing")] (CVal.str "/missing")
      ⟨true, ["missing"]⟩ rfl rfl rfl rfl

/-! ## Database expansion -/

/-- The spec-side expansion of one optional database group with a given
resolved root: each entry maps to the string form of the root joined with
the entry path; an absent group yields the empty mapping. -/
def dbGroup (root : FsPath) : Option (List (String × String)) →
    List (String × String)
  | some l => l.map (fun e => (e.1, pathStr (joinP root (strToPath e.2))))
  | none => []

/-- C7: when the home-expanded database root exists, `process_databases`
returns exactly the two keys `nucl` and `prot`, each present group mapped
entry-wise to the string form of the resolved root joined with the entry
path and each absent group empty; when the root does not exist it fails
with the missing-path error. The embedding is functional, so the input
specification is never mutated. -/
theorem process_databases_spec :
    ∀ (fs : FS) (d : DbSpec),
      (fs.ex (expandu fs.home (strToPath d.root_fp)) = true →
        process_databases fs d = Except.ok
          [("nucl", dbGroup (fs.res (expandu fs.home (strToPath d.root_fp)))
              d.nucleotide),
           ("prot", dbGroup (fs.res (expandu fs.home (strToPath d.root_fp)))
              d.protein)]) ∧
      (fs.ex (expandu fs.home (strToPath d.root_fp)) = false →
        process_databases fs d = Except.error
          ("Path " ++ pathStr (expandu fs.home (strToPath d.root_fp))
            ++ " does not exist")) := by
  intro fs d
  constructor
  · intro hex
    rw [process_databases, verify, if_pos hex]
    simp only [ok_bind]
    congr 1
    have hn : (match d.nucleotide with
        | some l => if l.isEmpty then [] else
            l.map (fun e => (e.1, pathStr (joinP
              (fs.res (expandu fs.home (strToPath d.root_fp)))
              (strToPath e.2))))
        | none => []) = dbGroup
          (fs.res (expandu fs.home (strToPath d.root_fp))) d.nucleotide := by
      cases hg : d.nucleotide with
      | none => rfl
      | some l =>
        cases l with
        | nil => rfl
        | cons e es => rfl
    have hp : (match d.protein with
        | some l => if l.isEmpty then [] else
            l.map (fun e => (e.1, pathStr (joinP
              (fs.res (expandu fs.home (strToPath d.root_fp)))
              (strToPath e.2))))
        | none => []) = dbGroup
          (fs.res (expandu fs.home (strToPath d.root_fp))) d.protein := by
      cases hg : d.protein with
      | none => rfl
      | some l =>
        cases l with
        | nil => rfl
        | cons e es => rfl
    rw [hn, hp]
  · intro hex
    rw [process_databases, verify, if_neg (by simp [hex])]
    rfl

/-- A filesystem where exactly the absolute path `/data` exists and resolves
to `/real`, used as a concrete instance. -/
def fsData : FS :=
  { ex := fun p => p == ⟨true, ["data"]⟩,
    res := fun p => if p == ⟨true, ["data"]⟩ then ⟨true, ["real"]⟩ else p,
    cwd := ⟨true, ["w"]⟩, home := ⟨true, ["h"]⟩ }

/-- Witness for C7: a spec with root `/data` (resolving to `/real`) and one
nucleotide entry expands to the claimed two-key index. -/
theorem process_databases_spec_witness :
    process_databases fsData
        { root_fp := "/data", nucleotide := some [("db1", "n/db1.fa")],
          protein := none }
      = Except.ok [("nucl", [("db1", "/real/n/db1.fa")]), ("prot", [])] := by
  have h := (process_databases_spec fsData
      { root_fp := "/data", nucleotide := some [("db1", "n/db1.fa")],
        protein := none }).1 rfl
  rw [h]
  rfl

/-! ## Whole-configuration validation -/

/-- The claimed root determination: the verified (hence canonicalized) value
of `all.root` when the key is present, the current working directory
otherwise. -/
def rootResolution (fs : FS) (allSec : Sect) (root : FsPath) : Prop :=
  (∃ v p, lookupKey allSec "root" = some v ∧ cvalToPath v = some p ∧
     fs.ex p = true ∧ root = fs.res p)
  ∨ (lookupKey allSec "root" = none ∧ root = fs.cwd)

theorem validate_sections_lookup (fs : FS) (root : FsPath) :
    ∀ (cfg ncfg : ConfigTree),
      validate_sections fs root cfg = Except.ok ncfg →
      ∀ s sec, lookupKey cfg s = some sec →
        ∃ sec', validate_paths fs sec root = Except.ok sec' ∧
          lookupKey ncfg s = some sec' := by
  intro cfg
  induction cfg with
  | nil =>
    intro ncfg h s sec hs
    simp [lookupKey] at hs
  | cons p rest ih =>
    intro ncfg h s sec hs
    cases p with
    | mk s0 sec0 =>
      rw [validate_sections] at h
      cases hv : validate_paths fs sec0 root with
      | error e => rw [hv] at h; simp at h
      | ok sec0' =>
        rw [hv] at h
        simp only [ok_bind] at h
        cases hrest : validate_sections fs root rest with
        | error e => rw [hrest] at h; simp at h
        | ok rest' =>
          rw [hrest] at h
          simp only [ok_bind] at h
          obtain rfl : (s0, sec0') :: rest' = ncfg := by
            simpa [pure, Except.pure] using h
          rw [lookupKey_cons] at hs
          by_cases hss : s0 = s
          · rw [if_pos hss] at hs
            obtain rfl : sec0 = sec := by simpa using hs
            exact ⟨sec0', hv, by rw [lookupKey_cons, if_pos hss]⟩
          · rw [if_neg hss] at hs
            obtain ⟨sec', hval, hlook⟩ := ih rest' hrest s sec hs
            exact ⟨sec', hval, by rw [lookupKey_cons, if_neg hss]; exact hlook⟩

theorem lookup_setRootAll (cfg : ConfigTree) (root : FsPath) (s : String) :
    lookupKey (setRootAll cfg root) s =
      (lookupKey cfg s).map (fun sec =>
        if s = "all" then setKey sec "root" (CVal.pathv root) else sec) := by
  induction cfg with
  | nil => simp [setRootAll, lookupKey]
  | cons p rest ih =>
    cases p with
    | mk s0 sec0 =>
      have hmap : setRootAll ((s0, sec0) :: rest) root
          = (s0, if s0 = "all"
              then setKey sec0 "root" (CVal.pathv root) else sec0)
            :: setRootAll rest root := by
        by_cases hall : s0 = "all" <;> simp [setRootAll, hall]
      rw [hmap, lookupKey_cons, lookupKey_cons]
      by_cases hs : s0 = s
      · subst hs
        rw [if_pos rfl, if_pos rfl]
        simp
      · rw [if_neg hs, if_neg hs]
        exact ih

/-- C1: a successful `check_config` run resolves the root as the verified
value of `all.root` when present and the current working directory
otherwise, validates the paths of every section (including `all`) against
that root, and stores the resolved root under `all.root` in the result even
when the input had no such key. -/
theorem check_config_spec :
    ∀ (fs : FS) (cfg : ConfigTree) (allSec : Sect) (res : ConfigTree),
      lookupKey cfg "all" = some allSec →
      check_config fs cfg = Except.ok res →
      ∃ root, rootResolution fs allSec root ∧
        (∀ s sec, lookupKey cfg s = some sec →
          ∃ sec', validate_paths fs sec root = Except.ok sec' ∧
            lookupKey res s = some (if s = "all"
              then setKey sec' "root" (CVal.pathv root) else sec')) ∧
        ((lookupKey res "all").bind (fun sec => lookupKey sec "root")
          = some (CVal.pathv root)) := by
  intro fs cfg allSec res hall h
  rw [check_config, hall] at h
  simp only [ok_bind] at h
  have hroot : ∃ root, rootResolution fs allSec root ∧
      (do
        let newCfg ← validate_sections fs root cfg
        pure (setRootAll newCfg root)) = Except.ok res := by
    cases hv : lookupKey allSec "root" with
    | none =>
      simp only [hv, ok_bind] at h
      exact ⟨fs.cwd, Or.inr ⟨hv, rfl⟩, h⟩
    | some v =>
      simp only [hv] at h
      cases hp : cvalToPath v with
      | none => simp only [hp, error_bind] at h; simp at h
      | some p =>
        simp only [hp] at h
        cases hex : fs.ex p with
        | false =>
          rw [verify, if_neg (by simp [hex])] at h
          simp at h
        | true =>
          rw [verify, if_pos hex] at h
          simp only [ok_bind] at h
          exact ⟨fs.res p, Or.inl ⟨v, p, hv, hp, hex, rfl⟩, h⟩
  obtain ⟨root, hrr, h⟩ := hroot
  cases hvs : validate_sections fs root cfg with
  | error e => rw [hvs] at h; simp at h
  | ok ncfg =>
    rw [hvs] at h
    simp only [ok_bind] at h
    obtain rfl : setRootAll ncfg root = res := by
      simpa [pure, Except.pure] using h
    refine ⟨root, hrr, ?_, ?_⟩
    · intro s sec hs
      obtain ⟨sec', hval, hlook⟩ :=
        validate_sections_lookup fs root cfg ncfg hvs s sec hs
      refine ⟨sec', hval, ?_⟩
      rw [lookup_setRootAll, hlook]
      rfl
    · obtain ⟨allSec', hval, hlook⟩ :=
        validate_sections_lookup fs root cfg ncfg hvs "all" allSec hall
      rw [lookup_setRootAll, hlook]
      simp [lookupKey_setKey_self]

/-- Witness for C1: a configuration with an empty `all` section and no
declared root validates against the current working directory and the
result stores that root under `all.root`. -/
theorem check_config_spec_witness :
    ∃ root, rootResolution fsNoEx [] root ∧
      (∀ s sec,
        lookupKey ([("all", [])] : ConfigTree) s = some sec →
        ∃ sec', validate_paths fsNoEx sec root = Except.ok sec' ∧
          lookupKey [("all", [("root", CVal.pathv ⟨true, ["w"]⟩)])] s
            = some (if s = "all"
                then setKey sec' "root" (CVal.pathv root) else sec')) ∧
      ((lookupKey ([("all", [("root", CVal.pathv ⟨true, ["w"]⟩)])] :
          ConfigTree) "all").bind (fun sec => lookupKey sec "root")
        = some (CVal.pathv root)) :=
  check_config_spec fsNoEx [("all", [])] []
    [("all", [("root", CVal.pathv ⟨true, ["w"]⟩)])] rfl rfl

/-! ## Strict merge: key-set preservation -/

/-- Key agreement at every nesting level: whenever both sides are mappings,
they carry the same key set, and values that are mappings on both sides
agree recursively; positions where either side is not a mapping are
unconstrained. -/
inductive KeysAgree : CVal → CVal → Prop where
  | notBoth (t r : CVal) :
      isMapping t = false ∨ isMapping r = false → KeysAgree t r
  | maps (tl rl : List (String × CVal)) :
      (∀ k, hasKey tl k = hasKey rl k) →
      (∀ k a b, lookupKey tl k = some a → lookupKey rl k = some b →
        KeysAgree a b) →
      KeysAgree (CVal.mp tl) (CVal.mp rl)

/-- The invariant the strict merge maintains between target and result: a
non-mapping result is always allowed, and a mapping target can only turn
into a mapping with the same keys whose values satisfy the invariant
recursively — in particular a non-mapping never becomes a mapping. -/
inductive SRes : CVal → CVal → Prop where
  | toScalar (a b : CVal) : isMapping b = false → SRes a b
  | maps (tl rl : List (String × CVal)) :
      (∀ k, hasKey tl k = hasKey rl k) →
      (∀ k a b, lookupKey tl k = some a → lookupKey rl k = some b →
        SRes a b) →
      SRes (CVal.mp tl) (CVal.mp rl)

theorem lookupKey_sizeOf {tl : List (String × CVal)} {k : String} {a : CVal}
    (h : lookupKey tl k = some a) : sizeOf a < sizeOf tl := by
  unfold lookupKey at h
  cases hf : tl.find? (fun q => q.1 == k) with
  | none => rw [hf] at h; simp at h
  | some q =>
    rw [hf] at h
    simp at h
    have hmem : q ∈ tl := List.mem_of_find?_eq_some hf
    have h1 : sizeOf q < sizeOf tl := List.sizeOf_lt_of_mem hmem
    cases q with
    | mk q1 q2 =>
      simp at h
      subst h
      simp at h1
      omega

theorem sres_refl_aux : ∀ (n : Nat) (v : CVal), sizeOf v ≤ n → SRes v v := by
  intro n
  induction n with
  | zero =>
    intro v h
    cases v <;> simp_arith at h
  | succ n ih =>
    intro v h
    cases v with
    | mp l =>
      refine SRes.maps l l (fun k => rfl) ?_
      intro k a b ha hb
      obtain rfl : a = b := Option.some_inj.mp (ha.symm.trans hb)
      apply ih
      have h1 : sizeOf a < sizeOf l := lookupKey_sizeOf ha
      have h2 : sizeOf (CVal.mp l) = 1 + sizeOf l := by simp
      omega
    | str s => exact SRes.toScalar _ _ rfl
    | nat m => exact SRes.toScalar _ _ rfl
    | pathv p => exact SRes.toScalar _ _ rfl

theorem sres_refl (v : CVal) : SRes v v := sres_refl_aux (sizeOf v) v le_rfl

theorem sres_trans {b c : CVal} (h2 : SRes b c) :
    ∀ {a : CVal}, SRes a b → SRes a c := by
  induction h2 with
  | toScalar b' c' hc =>
    intro a _
    exact SRes.toScalar _ _ hc
  | maps bl cl hk hn ihn =>
    intro a h1
    cases h1 with
    | toScalar a' b' hb => simp [isMapping] at hb
    | maps al bl2 h1k h1n =>
      refine SRes.maps al cl (fun k => (h1k k).trans (hk k)) ?_
      intro k a' c' ha hc
      have hkb : hasKey bl k = true := by
        rw [hk k]
        simp [hasKey, hc]
      obtain ⟨b', hb⟩ : ∃ b', lookupKey bl k = some b' := by
        cases hlb : lookupKey bl k with
        | none => rw [hasKey, hlb] at hkb; simp at hkb
        | some x => exact ⟨x, rfl⟩
      exact ihn k b' c' hb hc (h1n k a' b' ha hb)

theorem sres_keysAgree {a b : CVal} (h : SRes a b) : KeysAgree a b := by
  induction h with
  | toScalar a' b' hb => exact KeysAgree.notBoth a' b' (Or.inr hb)
  | maps tl rl hk hn ihn =>
    exact KeysAgree.maps tl rl hk (fun k x y hx hy => ihn k x y hx hy)

theorem strict_ok_mp :
    ∀ (items : List (String × CVal)) (tl : List (String × CVal)) (r : CVal),
      update_dict_strict (CVal.mp tl) items = Except.ok r →
      ∃ rl, r = CVal.mp rl := by
  intro items
  induction items with
  | nil =>
    intro tl r h
    simp [update_dict_strict] at h
    exact ⟨tl, h.symm⟩
  | cons p rest ih =>
    intro tl r h
    cases p with
    | mk k v =>
      rw [update_dict_strict.eq_def] at h
      by_cases hk : hasKey tl k = true
      · cases v with
        | mp m =>
          simp only [hk] at h
          cases hsub : update_dict_strict
              ((lookupKey tl k).getD (CVal.mp [])) m with
          | error e => rw [hsub] at h; simp at h
          | ok v' =>
            rw [hsub] at h
            simp only [ok_bind] at h
            exact ih (setKey tl k v') r h
        | str s =>
          simp only [hk] at h
          exact ih (setKey tl k (CVal.str s)) r h
        | nat m =>
          simp only [hk] at h
          exact ih (setKey tl k (CVal.nat m)) r h
        | pathv q =>
          simp only [hk] at h
          exact ih (setKey tl k (CVal.pathv q)) r h
      · have hk' : hasKey tl k = false := by simpa using hk
        cases v <;> simp only [hk'] at h <;> exact ih tl r h

/-- Keys and nested values relate the original mapping to the one updated at
a present key whose old and new values satisfy `SRes`. -/
theorem sres_setKey_step {tl : List (String × CVal)} {k : String}
    {sub v' : CVal} (hk : hasKey tl k = true)
    (hsub : lookupKey tl k = some sub) (hsv : SRes sub v') :
    SRes (CVal.mp tl) (CVal.mp (setKey tl k v')) := by
  refine SRes.maps _ _ ?_ ?_
  · intro q
    rw [hasKey_setKey]
    by_cases hq : q = k
    · subst hq
      simp [hk]
    · simp [hq]
  · intro q a b ha hb
    by_cases hq : q = k
    · subst hq
      obtain rfl : a = sub := Option.some_inj.mp (ha.symm.trans hsub)
      rw [lookupKey_setKey_self] at hb
      obtain rfl : v' = b := Option.some_inj.mp hb
      exact hsv
    · rw [lookupKey_setKey_ne tl k v' q hq] at hb
      obtain rfl : a = b := Option.some_inj.mp (ha.symm.trans hb)
      exact sres_refl a

theorem strict_ok_sres :
    ∀ (n : Nat) (items : List (String × CVal)) (t r : CVal),
      sizeOf items ≤ n → update_dict_strict t items = Except.ok r →
      SRes t r := by
  intro n
  induction n with
  | zero =>
    intro items t r hs h
    cases items <;> simp_arith at hs
  | succ n ih =>
    intro items t r hs h
    cases items with
    | nil =>
      simp [update_dict_strict] at h
      rw [← h]
      exact sres_refl t
    | cons p rest =>
      cases p with
      | mk k v =>
        cases t with
        | str s => rw [update_dict_strict.eq_def] at h; simp at h
        | nat m => rw [update_dict_strict.eq_def] at h; simp at h
        | pathv q => rw [update_dict_strict.eq_def] at h; simp at h
        | mp tl =>
          rw [update_dict_strict.eq_def] at h
          have hsrest : sizeOf rest ≤ n := by
            simp_arith at hs
            omega
          by_cases hk : hasKey tl k = true
          · obtain ⟨sub, hsubeq⟩ : ∃ sub, lookupKey tl k = some sub := by
              cases hl : lookupKey tl k with
              | none => rw [hasKey, hl] at hk; simp at hk
              | some x => exact ⟨x, rfl⟩
            cases v with
            | mp m =>
              simp only [hk] at h
              rw [hsubeq] at h
              simp only [Option.getD_some] at h
              cases hsub : update_dict_strict sub m with
              | error e => rw [hsub] at h; simp at h
              | ok v' =>
                rw [hsub] at h
                simp only [ok_bind] at h
                have hsm : sizeOf m ≤ n := by
                  simp_arith at hs
                  omega
                have ih1 : SRes sub v' := ih m sub v' hsm hsub
                have ih2 : SRes (CVal.mp (setKey tl k v')) r :=
                  ih rest _ r hsrest h
                exact sres_trans ih2 (sres_setKey_step hk hsubeq ih1)
            | str s =>
              simp only [hk] at h
              exact sres_trans (ih rest _ r hsrest h)
                (sres_setKey_step hk hsubeq (SRes.toScalar _ _ rfl))
            | nat m =>
              simp only [hk] at h
              exact sres_trans (ih rest _ r hsrest h)
                (sres_setKey_step hk hsubeq (SRes.toScalar _ _ rfl))
            | pathv q =>
              simp only [hk] at h
              exact sres_trans (ih rest _ r hsrest h)
                (sres_setKey_step hk hsubeq (SRes.toScalar _ _ rfl))
          · have hk' : hasKey tl k = false := by simpa using hk
            cases v <;> simp only [hk'] at h <;>
              exact ih rest _ r hsrest h

/-- C4: a successful strict merge never introduces a key absent from the
target: the result is a mapping whose key set equals the key set of the
target, at the top level and recursively wherever both the target value and
the result value are nested mappings; moreover a key unknown to the target
is dropped, a non-mapping value at a known key overwrites, and a mapping
value at a known key recurses into the target value. -/
theorem strict_merge_preserves_keys :
    (∀ (tl items : List (String × CVal)) (r : CVal),
      update_dict_strict (CVal.mp tl) items = Except.ok r →
      ∃ rl, r = CVal.mp rl ∧ KeysAgree (CVal.mp tl) (CVal.mp rl)) ∧
    (∀ (tl : List (String × CVal)) (k : String) (v : CVal),
      hasKey tl k = false →
      update_dict_strict (CVal.mp tl) [(k, v)] = Except.ok (CVal.mp tl)) ∧
    (∀ (tl : List (String × CVal)) (k : String) (v : CVal),
      hasKey tl k = true → isMapping v = false →
      update_dict_strict (CVal.mp tl) [(k, v)]
        = Except.ok (CVal.mp (setKey tl k v))) ∧
    (∀ (tl m : List (String × CVal)) (k : String) (sub v' : CVal),
      lookupKey tl k = some sub →
      update_dict_strict sub m = Except.ok v' →
      update_dict_strict (CVal.mp tl) [(k, CVal.mp m)]
        = Except.ok (CVal.mp (setKey tl k v'))) := by
  refine ⟨?_, ?_, ?_, ?_⟩
  · intro tl items r h
    obtain ⟨rl, rfl⟩ := strict_ok_mp items tl r h
    exact ⟨rl, rfl,
      sres_keysAgree (strict_ok_sres (sizeOf items) items _ _ le_rfl h)⟩
  · intro tl k v hk
    rw [update_dict_strict.eq_def]
    cases v <;> simp only [hk] <;> rw [update_dict_strict]
  · intro tl k v hk hv
    rw [update_dict_strict.eq_def]
    cases v with
    | mp l => simp [isMapping] at hv
    | str s => simp only [hk]; rw [update_dict_strict]
    | nat m => simp only [hk]; rw [update_dict_strict]
    | pathv q => simp only [hk]; rw [update_dict_strict]
  · intro tl m k sub v' hsub hm
    have hk : hasKey tl k = true := by simp [hasKey, hsub]
    rw [update_dict_strict.eq_def]
    simp only [hk, hsub, Option.getD_some, hm, ok_bind]
    rw [update_dict_strict]

/-- Witness for C4: merging an update for the present key `b` and the
unknown key `z` into a two-key target preserves the key set; the unknown
key is dropped. -/
theorem strict_merge_preserves_keys_witness :
    ∃ rl, CVal.mp [("a", CVal.nat 1), ("b", CVal.mp [("c", CVal.nat 5)])]
        = CVal.mp rl ∧
      KeysAgree
        (CVal.mp [("a", CVal.nat 1), ("b", CVal.mp [("c", CVal.nat 2)])])
        (CVal.mp rl) :=
  strict_merge_preserves_keys.1
    [("a", CVal.nat 1), ("b", CVal.mp [("c", CVal.nat 2)])]
    [("b", CVal.mp [("c", CVal.nat 5)]), ("z", CVal.nat 9)]
    (CVal.mp [("a", CVal.nat 1), ("b", CVal.mp [("c", CVal.nat 5)])])
    (by simp [update_dict_strict, hasKey, lookupKey, List.find?, setKey])

end Sunbeam
